import Mathlib

/-!
Verification of the Game of Life engine in `src/main.rs` against its
specification, via a shallow embedding.

Modelling conventions:
* Rust `usize` values are `Nat`; the checked subtraction / addition that
  Rust performs (panicking on under/overflow) is modelled by `usize_sub` /
  `usize_add` returning `Option Nat`, with `none` standing for a panic.
  A function that can panic therefore returns an `Option`.
* The fixed `[[Cell; BOARD_HEIGHT]; BOARD_WIDTH]` array is modelled as a
  total function `Nat → Nat → Cell`; positions with `x ≥ BOARD_WIDTH` or
  `y ≥ BOARD_HEIGHT` do not exist in the Rust array and are never read by
  any operation (all reads go through the bounds checks of `get_cell`).
* A Rust mutation through `get_cell_mut` followed by a field write is
  modelled by `modify_cell`, which applies a cell transformer at the
  coordinate when `get_cell_mut` would return `Some` and leaves the board
  unchanged otherwise.
-/

def BOARD_WIDTH : Nat := 125 + 1

def BOARD_HEIGHT : Nat := 70 + 1

def USIZE_BOUND : Nat := 2 ^ 64

/-- Checked `usize` subtraction: Rust `a - b`, panicking (`none`) on underflow. -/
def usize_sub (a b : Nat) : Option Nat :=
  if b ≤ a then some (a - b) else none

/-- Checked `usize` addition: Rust `a + b`, panicking (`none`) on overflow. -/
def usize_add (a b : Nat) : Option Nat :=
  if a + b < USIZE_BOUND then some (a + b) else none

structure Cell where
  alive : Bool
  x_coord : Nat
  y_coord : Nat
deriving DecidableEq

def Cell.flip (c : Cell) : Cell :=
  { c with alive := !c.alive }

/-- Model of the mutation `cell.alive = value` performed through `get_cell_mut`. -/
def Cell.set_alive (v : Bool) (c : Cell) : Cell :=
  { c with alive := v }

structure Board where
  board : Nat → Nat → Cell

/-- The coordinates at which the Rust board holds a live, addressable cell:
the 1-based in_interior, index 0 and the top indices being the sentinel border. -/
def in_interior (p : Nat × Nat) : Prop :=
  1 ≤ p.1 ∧ p.1 ≤ BOARD_WIDTH - 1 ∧ 1 ≤ p.2 ∧ p.2 ≤ BOARD_HEIGHT - 1

instance in_interior.decidable (p : Nat × Nat) : Decidable (in_interior p) := by
  unfold in_interior
  exact inferInstance

def Board.get_cell (b : Board) (coords : Nat × Nat) : Option Cell :=
  if coords.1 = 0 ∨ coords.2 = 0 ∨ coords.1 = BOARD_WIDTH ∨ coords.2 = BOARD_HEIGHT then
    none
  else
    match (if coords.1 < BOARD_WIDTH then some (b.board coords.1) else none) with
    | some column =>
      match (if coords.2 < BOARD_HEIGHT then some (column coords.2) else none) with
      | some cell => some cell
      | none => none
    | none => none

def Board.get_cell_mut (b : Board) (coords : Nat × Nat) : Option Cell :=
  if coords.1 = 0 ∨ coords.2 = 0 ∨ coords.1 = BOARD_WIDTH ∨ coords.2 = BOARD_HEIGHT then
    none
  else
    match (if coords.1 < BOARD_WIDTH then some (b.board coords.1) else none) with
    | some column =>
      match (if coords.2 < BOARD_HEIGHT then some (column coords.2) else none) with
      | some cell => some cell
      | none => none
    | none => none

/-- Mutation through `get_cell_mut`: apply `f` to the cell the mutable
reference points at; if the lookup fails nothing happens. -/
def modify_cell (b : Board) (coords : Nat × Nat) (f : Cell → Cell) : Board :=
  match b.get_cell_mut coords with
  | some _ =>
    { board := fun i j => if i = coords.1 ∧ j = coords.2 then f (b.board i j) else b.board i j }
  | none => b

theorem Board.get_cell_mut_eq (b : Board) (p : Nat × Nat) :
    b.get_cell_mut p = b.get_cell p := rfl

theorem Board.get_cell_of_interior (b : Board) (p : Nat × Nat) (h : in_interior p) :
    b.get_cell p = some (b.board p.1 p.2) := by
  obtain ⟨h1, h2, h3, h4⟩ := h
  have hw : p.1 < BOARD_WIDTH := by unfold BOARD_WIDTH at *; omega
  have hh : p.2 < BOARD_HEIGHT := by unfold BOARD_HEIGHT at *; omega
  have hne : ¬(p.1 = 0 ∨ p.2 = 0 ∨ p.1 = BOARD_WIDTH ∨ p.2 = BOARD_HEIGHT) := by
    unfold BOARD_WIDTH BOARD_HEIGHT at *; omega
  simp [Board.get_cell, hne, hw, hh]

theorem Board.get_cell_of_not_interior (b : Board) (p : Nat × Nat) (h : ¬ in_interior p) :
    b.get_cell p = none := by
  unfold in_interior at h
  by_cases h0 : p.1 = 0 ∨ p.2 = 0 ∨ p.1 = BOARD_WIDTH ∨ p.2 = BOARD_HEIGHT
  · simp [Board.get_cell, h0]
  · have hxy : ¬ p.1 < BOARD_WIDTH ∨ ¬ p.2 < BOARD_HEIGHT := by
      unfold BOARD_WIDTH BOARD_HEIGHT at *; omega
    rcases hxy with hx | hy
    · simp [Board.get_cell, h0, hx]
    · by_cases hx2 : p.1 < BOARD_WIDTH
      · simp [Board.get_cell, h0, hx2, hy]
      · simp [Board.get_cell, h0, hx2]

theorem modify_cell_of_not_interior (b : Board) (p : Nat × Nat) (f : Cell → Cell)
    (h : ¬ in_interior p) : modify_cell b p f = b := by
  unfold modify_cell
  rw [Board.get_cell_mut_eq, Board.get_cell_of_not_interior b p h]

theorem modify_cell_board (b : Board) (p : Nat × Nat) (f : Cell → Cell)
    (h : in_interior p) (i j : Nat) :
    (modify_cell b p f).board i j =
      if i = p.1 ∧ j = p.2 then f (b.board i j) else b.board i j := by
  unfold modify_cell
  rw [Board.get_cell_mut_eq, Board.get_cell_of_interior b p h]

theorem get_cell_exists_some_iff (b : Board) (x y : Nat) :
    (∃ c, b.get_cell (x, y) = some c) ↔
      (1 ≤ x ∧ x ≤ BOARD_WIDTH - 1 ∧ 1 ≤ y ∧ y ≤ BOARD_HEIGHT - 1) := by
  have hint : in_interior (x, y) ↔
      (1 ≤ x ∧ x ≤ BOARD_WIDTH - 1 ∧ 1 ≤ y ∧ y ≤ BOARD_HEIGHT - 1) := Iff.rfl
  constructor
  · rintro ⟨c, hc⟩
    by_contra hni
    rw [Board.get_cell_of_not_interior b (x, y) (fun hi => hni (hint.mp hi))] at hc
    exact Option.noConfusion hc
  · intro hi
    exact ⟨b.board x y, Board.get_cell_of_interior b (x, y) (hint.mpr hi)⟩

/-- C5: `get_cell` is total (it is a plain function into `Option`, with no
panicking operation); it returns `some` exactly on the in_interior
`1 ≤ x ≤ BOARD_WIDTH − 1`, `1 ≤ y ≤ BOARD_HEIGHT − 1`, and `none` for every
other coordinate, including the sentinel indices `x = 0`, `y = 0`,
`x = BOARD_WIDTH`, `y = BOARD_HEIGHT` and anything beyond the array. -/
theorem get_cell_some_iff_interior (b : Board) (x y : Nat) :
    ((∃ c, b.get_cell (x, y) = some c) ↔
      (1 ≤ x ∧ x ≤ BOARD_WIDTH - 1 ∧ 1 ≤ y ∧ y ≤ BOARD_HEIGHT - 1)) ∧
    (¬(1 ≤ x ∧ x ≤ BOARD_WIDTH - 1 ∧ 1 ≤ y ∧ y ≤ BOARD_HEIGHT - 1) →
      b.get_cell (x, y) = none) := by
  have hint : in_interior (x, y) ↔
      (1 ≤ x ∧ x ≤ BOARD_WIDTH - 1 ∧ 1 ≤ y ∧ y ≤ BOARD_HEIGHT - 1) := Iff.rfl
  constructor
  · exact get_cell_exists_some_iff b x y
  · intro hni
    exact Board.get_cell_of_not_interior b (x, y) (fun hi => hni (hint.mp hi))

/-- Contribution of one neighbor probe, the body of each
`if let Some(cell) = self.get_cell(...) { if cell.alive { n += 1 } }`. -/
def count_cell (b : Board) (p : Nat × Nat) (n : Nat) : Nat :=
  match b.get_cell p with
  | some cell => if cell.alive then n + 1 else n
  | none => n

/-- Embedding of `Board::count_adjacent_alive`; the probes occur in source
order, and each `coords.0 - 1` / `+ 1` is the checked `usize` operation. -/
def Board.count_adjacent_alive (b : Board) (coords : Nat × Nat) : Option Nat := do
  let xm ← usize_sub coords.1 1
  let ym ← usize_sub coords.2 1
  let n1 := count_cell b (xm, ym) 0
  let n2 := count_cell b (xm, coords.2) n1
  let yp ← usize_add coords.2 1
  let n3 := count_cell b (xm, yp) n2
  let n4 := count_cell b (coords.1, ym) n3
  let n5 := count_cell b (coords.1, yp) n4
  let xp ← usize_add coords.1 1
  let n6 := count_cell b (xp, ym) n5
  let n7 := count_cell b (xp, coords.2) n6
  let n8 := count_cell b (xp, yp) n7
  pure n8

/-- Modelled from the spec: the live count of one queried position,
an absent neighbor contributing 0. -/
def alive_at (b : Board) (p : Nat × Nat) : Nat :=
  match b.get_cell p with
  | some cell => if cell.alive then 1 else 0
  | none => 0

/-- Modelled from the spec: number of the eight Moore-neighborhood
positions whose `get` query yields a present, alive cell. -/
def spec_moore_count (b : Board) (x y : Nat) : Nat :=
  alive_at b (x - 1, y - 1) + alive_at b (x - 1, y) + alive_at b (x - 1, y + 1) +
    alive_at b (x, y - 1) + alive_at b (x, y + 1) +
    alive_at b (x + 1, y - 1) + alive_at b (x + 1, y) + alive_at b (x + 1, y + 1)

theorem BOARD_WIDTH_eq : BOARD_WIDTH = 126 := rfl

theorem BOARD_HEIGHT_eq : BOARD_HEIGHT = 71 := rfl

theorem usize_bound_large : 127 ≤ USIZE_BOUND := by
  unfold USIZE_BOUND
  norm_num

theorem count_cell_eq (b : Board) (p : Nat × Nat) (n : Nat) :
    count_cell b p n = n + alive_at b p := by
  unfold count_cell alive_at
  cases b.get_cell p with
  | none => simp
  | some c => cases ha : c.alive <;> simp [ha]

theorem alive_at_le_one (b : Board) (p : Nat × Nat) : alive_at b p ≤ 1 := by
  unfold alive_at
  cases b.get_cell p with
  | none => simp
  | some c => cases ha : c.alive <;> simp [ha]

theorem count_adjacent_alive_eq_spec (b : Board) (x y : Nat)
    (h1 : 1 ≤ x) (h2 : 1 ≤ y) (h3 : x + 1 < USIZE_BOUND) (h4 : y + 1 < USIZE_BOUND) :
    b.count_adjacent_alive (x, y) = some (spec_moore_count b x y) := by
  have e1 : usize_sub x 1 = some (x - 1) := by unfold usize_sub; rw [if_pos h1]
  have e2 : usize_sub y 1 = some (y - 1) := by unfold usize_sub; rw [if_pos h2]
  have e3 : usize_add x 1 = some (x + 1) := by unfold usize_add; rw [if_pos h3]
  have e4 : usize_add y 1 = some (y + 1) := by unfold usize_add; rw [if_pos h4]
  simp only [Board.count_adjacent_alive, e1, e2, e3, e4, Option.bind_eq_bind,
    Option.some_bind, Option.pure_def, count_cell_eq, spec_moore_count]
  congr 1
  omega

theorem count_adjacent_alive_some_bounds (b : Board) (x y n : Nat)
    (h : b.count_adjacent_alive (x, y) = some n) :
    1 ≤ x ∧ 1 ≤ y ∧ x + 1 < USIZE_BOUND ∧ y + 1 < USIZE_BOUND := by
  by_cases h1 : 1 ≤ x
  · by_cases h2 : 1 ≤ y
    · by_cases h4 : y + 1 < USIZE_BOUND
      · by_cases h3 : x + 1 < USIZE_BOUND
        · exact ⟨h1, h2, h3, h4⟩
        · simp [Board.count_adjacent_alive, usize_sub, usize_add, h1, h2, h3, h4] at h
      · simp [Board.count_adjacent_alive, usize_sub, usize_add, h1, h2, h4] at h
    · simp [Board.count_adjacent_alive, usize_sub, usize_add, h1, h2] at h
  · simp [Board.count_adjacent_alive, usize_sub, usize_add, h1] at h

/-- C3: whenever `count_adjacent_alive` is defined it returns exactly the
number of the eight Moore-neighborhood positions whose `get_cell` query
yields a present, alive cell (absent neighbors contributing 0), a value in
`[0, 8]`; and on a board whose cells are all dead the count is 0. -/
theorem count_adjacent_alive_counts_moore_neighbors (b : Board) (x y n : Nat)
    (h : b.count_adjacent_alive (x, y) = some n) :
    (n = spec_moore_count b x y ∧ n ≤ 8) ∧
      ((∀ i j, (b.board i j).alive = false) → n = 0) := by
  obtain ⟨h1, h2, h3, h4⟩ := count_adjacent_alive_some_bounds b x y n h
  rw [count_adjacent_alive_eq_spec b x y h1 h2 h3 h4] at h
  have hn : n = spec_moore_count b x y := (Option.some.inj h).symm
  have hz : ∀ p : Nat × Nat, (∀ i j, (b.board i j).alive = false) → alive_at b p = 0 := by
    intro p hdead
    unfold alive_at
    by_cases hi : in_interior p
    · rw [Board.get_cell_of_interior b p hi]
      simp [hdead]
    · rw [Board.get_cell_of_not_interior b p hi]
  constructor
  · refine ⟨hn, ?_⟩
    have a1 := alive_at_le_one b (x - 1, y - 1)
    have a2 := alive_at_le_one b (x - 1, y)
    have a3 := alive_at_le_one b (x - 1, y + 1)
    have a4 := alive_at_le_one b (x, y - 1)
    have a5 := alive_at_le_one b (x, y + 1)
    have a6 := alive_at_le_one b (x + 1, y - 1)
    have a7 := alive_at_le_one b (x + 1, y)
    have a8 := alive_at_le_one b (x + 1, y + 1)
    rw [hn]
    unfold spec_moore_count
    omega
  · intro hdead
    rw [hn]
    unfold spec_moore_count
    simp [hz _ hdead]

/-- Test fixture: a board whose every position holds a dead cell storing its
own coordinates. -/
def all_dead_board : Board :=
  { board := fun x y => { alive := false, x_coord := x, y_coord := y } }

/-- C4 counterexample: at the coordinate `(0, 0)` the very first neighbor
probe computes `0 - 1` on a `usize`, which panics; in the model the checked
subtraction yields `none`, so `count_adjacent_alive` does fail for some
input coordinates. -/
theorem count_adjacent_alive_panics_at_origin :
    all_dead_board.count_adjacent_alive (0, 0) = none := rfl

/-- C4 (amended): restricted to the documented coordinate domain
`1 ≤ x ≤ BOARD_WIDTH − 1`, `1 ≤ y ≤ BOARD_HEIGHT − 1` — which contains the
four interior corners and the edge rows and columns, where fewer than 8
neighbors exist — `count_adjacent_alive` never fails: the subtractions
`x - 1`, `y - 1` cannot underflow there. -/
theorem count_adjacent_alive_total_on_domain (b : Board) (x y : Nat)
    (hx1 : 1 ≤ x) (hx2 : x ≤ BOARD_WIDTH - 1) (hy1 : 1 ≤ y) (hy2 : y ≤ BOARD_HEIGHT - 1) :
    ∃ n, b.count_adjacent_alive (x, y) = some n := by
  have hu := usize_bound_large
  rw [BOARD_WIDTH_eq] at hx2
  rw [BOARD_HEIGHT_eq] at hy2
  exact ⟨spec_moore_count b x y,
    count_adjacent_alive_eq_spec b x y hx1 hy1 (by omega) (by omega)⟩

theorem count_adjacent_alive_total_on_domain_witness :
    (1 ≤ 1 ∧ 1 ≤ BOARD_WIDTH - 1 ∧ 1 ≤ BOARD_HEIGHT - 1) ∧
      ∃ n, all_dead_board.count_adjacent_alive (1, 1) = some n :=
  ⟨by decide,
    count_adjacent_alive_total_on_domain all_dead_board 1 1 (by decide) (by decide)
      (by decide) (by decide)⟩

theorem count_adjacent_alive_counts_moore_neighbors_witness :
    all_dead_board.count_adjacent_alive (1, 1) = some 0 ∧
      ((0 = spec_moore_count all_dead_board 1 1 ∧ 0 ≤ 8) ∧
        ((∀ i j, (all_dead_board.board i j).alive = false) → 0 = 0)) :=
  ⟨rfl, count_adjacent_alive_counts_moore_neighbors all_dead_board 1 1 0 rfl⟩

theorem Board.ext_fun (b1 b2 : Board) (h : ∀ i j, b1.board i j = b2.board i j) :
    b1 = b2 := by
  cases b1
  cases b2
  simp only [Board.mk.injEq]
  funext i j
  exact h i j

theorem Cell.flip_flip (c : Cell) : Cell.flip (Cell.flip c) = c := by
  unfold Cell.flip
  simp

/-- C7: flipping the cell at an interior coordinate and reading it back
through `get_cell` returns the toggled alive value, and flipping the same
cell twice restores the board exactly (flip is an involution). -/
theorem flip_read_back_and_involution (b : Board) (x y : Nat)
    (hx1 : 1 ≤ x) (hx2 : x ≤ BOARD_WIDTH - 1) (hy1 : 1 ≤ y) (hy2 : y ≤ BOARD_HEIGHT - 1) :
    (∃ c, b.get_cell (x, y) = some c ∧
      (modify_cell b (x, y) Cell.flip).get_cell (x, y) = some (Cell.flip c) ∧
      (Cell.flip c).alive = !c.alive) ∧
    modify_cell (modify_cell b (x, y) Cell.flip) (x, y) Cell.flip = b := by
  have hi : in_interior (x, y) := ⟨hx1, hx2, hy1, hy2⟩
  constructor
  · refine ⟨b.board x y, Board.get_cell_of_interior b (x, y) hi, ?_, rfl⟩
    rw [Board.get_cell_of_interior _ (x, y) hi, modify_cell_board b (x, y) Cell.flip hi]
    simp
  · apply Board.ext_fun
    intro i j
    rw [modify_cell_board _ (x, y) Cell.flip hi, modify_cell_board b (x, y) Cell.flip hi]
    by_cases hij : i = x ∧ j = y
    · rw [if_pos hij, if_pos hij, Cell.flip_flip]
    · rw [if_neg hij, if_neg hij]

theorem flip_read_back_and_involution_witness :
    (∃ c, all_dead_board.get_cell (1, 1) = some c ∧
      (modify_cell all_dead_board (1, 1) Cell.flip).get_cell (1, 1) = some (Cell.flip c) ∧
      (Cell.flip c).alive = !c.alive) ∧
    modify_cell (modify_cell all_dead_board (1, 1) Cell.flip) (1, 1) Cell.flip =
      all_dead_board :=
  flip_read_back_and_involution all_dead_board 1 1 (by decide) (by decide) (by decide)
    (by decide)

/-- C6: the mutating accessor `get_cell_mut` reports an invalid coordinate
by returning `none` exactly when the coordinate lies outside the interior,
returns `some` for every interior coordinate, and whenever it reports
`none` no mutation happens at all, so nothing is set or flipped out of
bounds. -/
theorem get_cell_mut_reports_out_of_bounds (b : Board) (x y : Nat) :
    ((∃ c, b.get_cell_mut (x, y) = some c) ↔
      (1 ≤ x ∧ x ≤ BOARD_WIDTH - 1 ∧ 1 ≤ y ∧ y ≤ BOARD_HEIGHT - 1)) ∧
    (b.get_cell_mut (x, y) = none → ∀ f, modify_cell b (x, y) f = b) := by
  constructor
  · rw [Board.get_cell_mut_eq]
    exact get_cell_exists_some_iff b x y
  · intro h f
    unfold modify_cell
    rw [h]

theorem get_cell_mut_reports_out_of_bounds_witness :
    ((∃ c, all_dead_board.get_cell_mut (0, 1) = some c) ↔
      (1 ≤ 0 ∧ 0 ≤ BOARD_WIDTH - 1 ∧ 1 ≤ 1 ∧ 1 ≤ BOARD_HEIGHT - 1)) ∧
    (all_dead_board.get_cell_mut (0, 1) = none →
      ∀ f, modify_cell all_dead_board (0, 1) f = all_dead_board) :=
  get_cell_mut_reports_out_of_bounds all_dead_board 0 1

theorem get_cell_some_iff_interior_witness :
    ((∃ c, all_dead_board.get_cell (126, 1) = some c) ↔
      (1 ≤ 126 ∧ 126 ≤ BOARD_WIDTH - 1 ∧ 1 ≤ 1 ∧ 1 ≤ BOARD_HEIGHT - 1)) ∧
    (¬(1 ≤ 126 ∧ 126 ≤ BOARD_WIDTH - 1 ∧ 1 ≤ 1 ∧ 1 ≤ BOARD_HEIGHT - 1) →
      all_dead_board.get_cell (126, 1) = none) :=
  get_cell_some_iff_interior all_dead_board 126 1

/-- C9: a successful mutation at an interior coordinate — flipping the cell
or setting its alive flag — changes only that one cell's `alive` flag:
every other position of the array is untouched, and the stored coordinates
of the mutated cell are preserved. -/
theorem mutation_frame (b : Board) (x y : Nat) (v : Bool)
    (hx1 : 1 ≤ x) (hx2 : x ≤ BOARD_WIDTH - 1) (hy1 : 1 ≤ y) (hy2 : y ≤ BOARD_HEIGHT - 1) :
    (∀ i j, ¬(i = x ∧ j = y) →
      (modify_cell b (x, y) Cell.flip).board i j = b.board i j ∧
      (modify_cell b (x, y) (Cell.set_alive v)).board i j = b.board i j) ∧
    ((modify_cell b (x, y) Cell.flip).board x y).x_coord = (b.board x y).x_coord ∧
    ((modify_cell b (x, y) Cell.flip).board x y).y_coord = (b.board x y).y_coord ∧
    ((modify_cell b (x, y) (Cell.set_alive v)).board x y).x_coord = (b.board x y).x_coord ∧
    ((modify_cell b (x, y) (Cell.set_alive v)).board x y).y_coord = (b.board x y).y_coord := by
  have hi : in_interior (x, y) := ⟨hx1, hx2, hy1, hy2⟩
  refine ⟨?_, ?_, ?_, ?_, ?_⟩
  · intro i j hij
    exact ⟨by rw [modify_cell_board b (x, y) Cell.flip hi, if_neg hij],
      by rw [modify_cell_board b (x, y) (Cell.set_alive v) hi, if_neg hij]⟩
  · rw [modify_cell_board b (x, y) Cell.flip hi, if_pos ⟨rfl, rfl⟩]
    simp [Cell.flip]
  · rw [modify_cell_board b (x, y) Cell.flip hi, if_pos ⟨rfl, rfl⟩]
    simp [Cell.flip]
  · rw [modify_cell_board b (x, y) (Cell.set_alive v) hi, if_pos ⟨rfl, rfl⟩]
    simp [Cell.set_alive]
  · rw [modify_cell_board b (x, y) (Cell.set_alive v) hi, if_pos ⟨rfl, rfl⟩]
    simp [Cell.set_alive]

theorem mutation_frame_witness :
    (∀ i j, ¬(i = 2 ∧ j = 3) →
      (modify_cell all_dead_board (2, 3) Cell.flip).board i j = all_dead_board.board i j ∧
      (modify_cell all_dead_board (2, 3) (Cell.set_alive true)).board i j =
        all_dead_board.board i j) ∧
    ((modify_cell all_dead_board (2, 3) Cell.flip).board 2 3).x_coord =
      (all_dead_board.board 2 3).x_coord ∧
    ((modify_cell all_dead_board (2, 3) Cell.flip).board 2 3).y_coord =
      (all_dead_board.board 2 3).y_coord ∧
    ((modify_cell all_dead_board (2, 3) (Cell.set_alive true)).board 2 3).x_coord =
      (all_dead_board.board 2 3).x_coord ∧
    ((modify_cell all_dead_board (2, 3) (Cell.set_alive true)).board 2 3).y_coord =
      (all_dead_board.board 2 3).y_coord :=
  mutation_frame all_dead_board 2 3 true (by decide) (by decide) (by decide) (by decide)

/-- The x indices visited both by `for x in 1..BOARD_WIDTH` and by the
slice `&self.board[1..BOARD_WIDTH]`. -/
def interior_xs : List Nat := List.range' 1 (BOARD_WIDTH - 1)

/-- The y indices visited both by `for y in 1..BOARD_HEIGHT` and by the
slice `&column[1..BOARD_HEIGHT]`. -/
def interior_ys : List Nat := List.range' 1 (BOARD_HEIGHT - 1)

/-- The coordinates visited by the nested loops, in iteration order. -/
def interior_pairs : List (Nat × Nat) :=
  interior_xs.flatMap fun x => interior_ys.map fun y => (x, y)

/-- The write `cell.x_coord = x; cell.y_coord = y;` of `Board::new`. -/
def with_coords (x y : Nat) (c : Cell) : Cell :=
  { c with x_coord := x, y_coord := y }

/-- Embedding of `Board::new`: every cell starts as
`Cell { alive: false, x_coord: 0, y_coord: 0 }`, then the double loop stores
each interior cell's own coordinates through `get_cell_mut` (the source's
`unwrap` always succeeds on the loop range, so the write is `modify_cell`). -/
def Board.new : Board :=
  interior_xs.foldl
    (fun b x =>
      interior_ys.foldl (fun b2 y => modify_cell b2 (x, y) (with_coords x y)) b)
    { board := fun _ _ => { alive := false, x_coord := 0, y_coord := 0 } }

/-- Loop body of `Board::get_cells_to_flip`: count the neighbors at the
cell's stored coordinates and push those stored coordinates when the rule
requires a flip. -/
def flip_step (b : Board) (acc : Option (List (Nat × Nat))) (cell : Cell) :
    Option (List (Nat × Nat)) := do
  let l ← acc
  let n ← b.count_adjacent_alive (cell.x_coord, cell.y_coord)
  pure (if cell.alive then
          match n with
          | 2 => l
          | 3 => l
          | _ => l ++ [(cell.x_coord, cell.y_coord)]
        else
          match n with
          | 3 => l ++ [(cell.x_coord, cell.y_coord)]
          | _ => l)

/-- Embedding of `Board::get_cells_to_flip`: fold the loop body over the
cells of the slices `&self.board[1..BOARD_WIDTH]` / `&column[1..BOARD_HEIGHT]`
in iteration order; `none` models a panic inside `count_adjacent_alive`. -/
def Board.get_cells_to_flip (b : Board) : Option (List (Nat × Nat)) :=
  (interior_pairs.map fun p => b.board p.1 p.2).foldl (flip_step b) (some [])

/-- Embedding of `Board::tick`: materialize the flip set, then flip each of
its coordinates through `get_cell_mut`, skipping a `None` lookup. -/
def Board.tick (b : Board) : Option Board := do
  let to_flip ← b.get_cells_to_flip
  pure (to_flip.foldl (fun b2 coords => modify_cell b2 coords Cell.flip) b)

/-- The coordinate-key invariant: every interior position stores its own
lookup coordinates. -/
def WF (b : Board) : Prop :=
  ∀ x y, 1 ≤ x → x ≤ BOARD_WIDTH - 1 → 1 ≤ y → y ≤ BOARD_HEIGHT - 1 →
    (b.board x y).x_coord = x ∧ (b.board x y).y_coord = y

/-- The flip decision of the loop body, as a boolean of the pre-pass board. -/
def shouldFlip (b : Board) (p : Nat × Nat) : Bool :=
  match b.count_adjacent_alive p with
  | some n => if (b.board p.1 p.2).alive then !(n == 2 || n == 3) else (n == 3)
  | none => false

/-- Boards reachable through the public interface: built by `Board::new`,
then mutated only by flipping cells or setting their alive flags through
`get_cell_mut`, or by `tick`. -/
inductive Reachable : Board → Prop
  | new : Reachable Board.new
  | flip (b : Board) (p : Nat × Nat) : Reachable b → Reachable (modify_cell b p Cell.flip)
  | set (b : Board) (p : Nat × Nat) (v : Bool) :
      Reachable b → Reachable (modify_cell b p (Cell.set_alive v))
  | tick (b b2 : Board) : Reachable b → b.tick = some b2 → Reachable b2

theorem interior_pairs_eq_product : interior_pairs = interior_xs ×ˢ interior_ys := rfl

theorem mem_interior_pairs (p : Nat × Nat) : p ∈ interior_pairs ↔ in_interior p := by
  rw [interior_pairs_eq_product, ← Prod.mk.eta (p := p), List.mem_product]
  unfold interior_xs interior_ys in_interior
  rw [List.mem_range'_1, List.mem_range'_1]
  unfold BOARD_WIDTH BOARD_HEIGHT
  omega

theorem nodup_interior_pairs : interior_pairs.Nodup := by
  rw [interior_pairs_eq_product]
  exact List.Nodup.product (List.nodup_range' 1 (BOARD_WIDTH - 1))
    (List.nodup_range' 1 (BOARD_HEIGHT - 1))

theorem match_rule_eq (l : List (Nat × Nat)) (p : Nat × Nat) (al : Bool) (n : Nat) :
    (if al then
      match n with
      | 2 => l
      | 3 => l
      | _ => l ++ [p]
    else
      match n with
      | 3 => l ++ [p]
      | _ => l) =
      if (if al then !(n == 2 || n == 3) else (n == 3)) then l ++ [p] else l := by
  cases al <;> rcases n with _ | _ | _ | _ | n <;> rfl

theorem flip_step_some (b : Board) (l : List (Nat × Nat)) (cell : Cell) (n : Nat)
    (h : b.count_adjacent_alive (cell.x_coord, cell.y_coord) = some n) :
    flip_step b (some l) cell =
      some (if (if cell.alive then !(n == 2 || n == 3) else (n == 3)) then
        l ++ [(cell.x_coord, cell.y_coord)] else l) := by
  simp only [flip_step, Option.bind_eq_bind, Option.some_bind, h, Option.pure_def]
  rw [match_rule_eq]

theorem shouldFlip_eq (b : Board) (p : Nat × Nat) (n : Nat)
    (h : b.count_adjacent_alive p = some n) :
    shouldFlip b p = if (b.board p.1 p.2).alive then !(n == 2 || n == 3) else (n == 3) := by
  unfold shouldFlip
  rw [h]

theorem count_some_of_interior (b : Board) (p : Nat × Nat) (h : in_interior p) :
    b.count_adjacent_alive p = some (spec_moore_count b p.1 p.2) := by
  obtain ⟨h1, h2, h3, h4⟩ := h
  have hu := usize_bound_large
  rw [BOARD_WIDTH_eq] at h2
  rw [BOARD_HEIGHT_eq] at h4
  exact count_adjacent_alive_eq_spec b p.1 p.2 h1 h3 (by omega) (by omega)

theorem flip_fold_char (b : Board) (ps : List (Nat × Nat)) :
    ∀ acc : List (Nat × Nat),
    (∀ p ∈ ps, (b.board p.1 p.2).x_coord = p.1 ∧ (b.board p.1 p.2).y_coord = p.2 ∧
      ∃ n, b.count_adjacent_alive p = some n) →
    (ps.map fun p => b.board p.1 p.2).foldl (flip_step b) (some acc) =
      some (acc ++ ps.filter (shouldFlip b)) := by
  induction ps with
  | nil =>
    intro acc _
    simp
  | cons p ps ih =>
    intro acc h
    obtain ⟨hx, hy, n, hn⟩ := h p (List.mem_cons_self p ps)
    have hrest : ∀ q ∈ ps, (b.board q.1 q.2).x_coord = q.1 ∧ (b.board q.1 q.2).y_coord = q.2 ∧
        ∃ m, b.count_adjacent_alive q = some m :=
      fun q hq => h q (List.mem_cons_of_mem p hq)
    rw [List.map_cons, List.foldl_cons]
    rw [flip_step_some b acc (b.board p.1 p.2) n (by rw [hx, hy]; exact hn)]
    rw [hx, hy]
    rw [ih _ hrest]
    rw [List.filter_cons, shouldFlip_eq b p n hn]
    by_cases hC : (if (b.board p.1 p.2).alive = true then !(n == 2 || n == 3) else (n == 3)) = true
    · rw [if_pos hC, if_pos hC]
      simp
    · rw [if_neg hC, if_neg hC]

theorem flipset_eq (b : Board) (hwf : WF b) :
    b.get_cells_to_flip = some (interior_pairs.filter (shouldFlip b)) := by
  unfold Board.get_cells_to_flip
  rw [flip_fold_char b interior_pairs []]
  · simp
  · intro p hp
    have hi : in_interior p := (mem_interior_pairs p).mp hp
    obtain ⟨hcx, hcy⟩ := hwf p.1 p.2 hi.1 hi.2.1 hi.2.2.1 hi.2.2.2
    exact ⟨hcx, hcy, spec_moore_count b p.1 p.2, count_some_of_interior b p hi⟩

theorem wf_all_dead : WF all_dead_board := by
  intro x y h1 h2 h3 h4
  exact ⟨rfl, rfl⟩

/-- C1: on any board satisfying the coordinate-key invariant (which every
board reachable through the interface does, see C8 and C10), an interior
coordinate is in the result of `get_cells_to_flip` exactly when the B3/S23
rule mandates a change for that cell on the current, unmodified board: the
cell is alive with a live-neighbor count other than 2 and 3, or dead with a
count of exactly 3. The decision reads only the pre-pass board `b`, so
membership never depends on flips decided earlier in the same pass. -/
theorem flip_set_matches_rule (b : Board) (hwf : WF b) (x y : Nat)
    (hx1 : 1 ≤ x) (hx2 : x ≤ BOARD_WIDTH - 1) (hy1 : 1 ≤ y) (hy2 : y ≤ BOARD_HEIGHT - 1) :
    ∃ L c n, b.get_cells_to_flip = some L ∧ b.get_cell (x, y) = some c ∧
      b.count_adjacent_alive (x, y) = some n ∧
      ((x, y) ∈ L ↔ ((c.alive = true ∧ n ≠ 2 ∧ n ≠ 3) ∨ (c.alive = false ∧ n = 3))) := by
  have hi : in_interior (x, y) := ⟨hx1, hx2, hy1, hy2⟩
  refine ⟨interior_pairs.filter (shouldFlip b), b.board x y, spec_moore_count b x y,
    flipset_eq b hwf, Board.get_cell_of_interior b (x, y) hi,
    count_some_of_interior b (x, y) hi, ?_⟩
  rw [List.mem_filter,
    shouldFlip_eq b (x, y) (spec_moore_count b x y) (count_some_of_interior b (x, y) hi)]
  simp only [mem_interior_pairs, hi, true_and]
  cases ha : (b.board x y).alive <;> simp [ha]

theorem flip_set_matches_rule_witness :
    WF all_dead_board ∧
      (∃ L c n, all_dead_board.get_cells_to_flip = some L ∧
        all_dead_board.get_cell (1, 1) = some c ∧
        all_dead_board.count_adjacent_alive (1, 1) = some n ∧
        ((1, 1) ∈ L ↔ ((c.alive = true ∧ n ≠ 2 ∧ n ≠ 3) ∨ (c.alive = false ∧ n = 3)))) :=
  ⟨wf_all_dead, flip_set_matches_rule all_dead_board wf_all_dead 1 1 (by decide) (by decide)
    (by decide) (by decide)⟩

theorem foldl_flip_board (L : List (Nat × Nat)) :
    ∀ (b : Board) (i j : Nat), L.Nodup → (∀ p ∈ L, in_interior p) →
    (L.foldl (fun b2 coords => modify_cell b2 coords Cell.flip) b).board i j =
      if (i, j) ∈ L then Cell.flip (b.board i j) else b.board i j := by
  induction L with
  | nil =>
    intro b i j _ _
    simp
  | cons p L ih =>
    intro b i j hnd hint
    have hip : in_interior p := hint p (List.mem_cons_self p L)
    rw [List.foldl_cons,
      ih (modify_cell b p Cell.flip) i j hnd.of_cons
        (fun q hq => hint q (List.mem_cons_of_mem p hq)),
      modify_cell_board b p Cell.flip hip]
    by_cases hpij : i = p.1 ∧ j = p.2
    · have hpe : p = (i, j) := by
        obtain ⟨h1, h2⟩ := hpij
        rw [h1, h2]
      have hnotL : (i, j) ∉ L := by
        rw [← hpe]
        exact (List.nodup_cons.mp hnd).1
      rw [if_neg hnotL, if_pos hpij, if_pos (by rw [← hpe]; exact List.mem_cons_self p L)]
    · have hne : (i, j) ≠ p := fun he => hpij ⟨congrArg Prod.fst he, congrArg Prod.snd he⟩
      rw [if_neg hpij]
      by_cases hmem : (i, j) ∈ L
      · rw [if_pos hmem, if_pos (List.mem_cons_of_mem p hmem)]
      · rw [if_neg hmem, if_neg (fun hm => (List.mem_cons.mp hm).elim hne hmem)]

theorem tick_eq (b b2 : Board) (h : b.tick = some b2) :
    ∃ L, b.get_cells_to_flip = some L ∧
      b2 = L.foldl (fun b3 coords => modify_cell b3 coords Cell.flip) b := by
  unfold Board.tick at h
  cases hL : b.get_cells_to_flip with
  | none =>
    rw [hL] at h
    simp at h
  | some L =>
    rw [hL] at h
    simp at h
    exact ⟨L, rfl, h.symm⟩

/-- C2: `tick` first materializes the flip set of the pre-tick board and
then toggles exactly the cells at those coordinates, as one batch: in the
post-tick board (for any board satisfying the coordinate-key invariant)
each interior cell's alive state equals its pre-tick state XOR membership
of its coordinate in `get_cells_to_flip` of the pre-tick board, and every
position outside the interior is untouched — the post-state is exactly the
pre-state with the whole flip set applied. -/
theorem tick_applies_flip_set_atomically (b : Board) (hwf : WF b) :
    ∃ L b2, b.get_cells_to_flip = some L ∧ b.tick = some b2 ∧
      (∀ x y, 1 ≤ x → x ≤ BOARD_WIDTH - 1 → 1 ≤ y → y ≤ BOARD_HEIGHT - 1 →
        ∃ c c2, b.get_cell (x, y) = some c ∧ b2.get_cell (x, y) = some c2 ∧
          c2.alive = xor c.alive (decide ((x, y) ∈ L))) ∧
      (∀ i j, ¬ in_interior (i, j) → b2.board i j = b.board i j) := by
  have hset := flipset_eq b hwf
  have hnd : (interior_pairs.filter (shouldFlip b)).Nodup :=
    List.Nodup.filter (shouldFlip b) nodup_interior_pairs
  have hmem : ∀ p ∈ interior_pairs.filter (shouldFlip b), in_interior p := fun p hp =>
    (mem_interior_pairs p).mp (List.mem_filter.mp hp).1
  have htick : b.tick = some ((interior_pairs.filter (shouldFlip b)).foldl
      (fun b2 coords => modify_cell b2 coords Cell.flip) b) := by
    unfold Board.tick
    rw [hset]
    rfl
  refine ⟨interior_pairs.filter (shouldFlip b), _, hset, htick, ?_, ?_⟩
  · intro x y h1 h2 h3 h4
    have hi : in_interior (x, y) := ⟨h1, h2, h3, h4⟩
    refine ⟨b.board x y, _, Board.get_cell_of_interior b (x, y) hi,
      Board.get_cell_of_interior _ (x, y) hi, ?_⟩
    rw [foldl_flip_board (interior_pairs.filter (shouldFlip b)) b x y hnd hmem]
    by_cases hm : (x, y) ∈ interior_pairs.filter (shouldFlip b)
    · rw [if_pos hm]
      simp [Cell.flip, hm]
    · rw [if_neg hm]
      simp [hm]
  · intro i j hni
    rw [foldl_flip_board (interior_pairs.filter (shouldFlip b)) b i j hnd hmem,
      if_neg (fun hm => hni (hmem _ hm))]

theorem tick_applies_flip_set_atomically_witness :
    WF all_dead_board ∧
      (∃ L b2, all_dead_board.get_cells_to_flip = some L ∧
        all_dead_board.tick = some b2 ∧
        (∀ x y, 1 ≤ x → x ≤ BOARD_WIDTH - 1 → 1 ≤ y → y ≤ BOARD_HEIGHT - 1 →
          ∃ c c2, all_dead_board.get_cell (x, y) = some c ∧
            b2.get_cell (x, y) = some c2 ∧
            c2.alive = xor c.alive (decide ((x, y) ∈ L))) ∧
        (∀ i j, ¬ in_interior (i, j) → b2.board i j = all_dead_board.board i j)) :=
  ⟨wf_all_dead, tick_applies_flip_set_atomically all_dead_board wf_all_dead⟩

theorem with_coords_with_coords (x y x2 y2 : Nat) (c : Cell) :
    with_coords x y (with_coords x2 y2 c) = with_coords x y c := rfl

theorem inner_fold_board (x : Nat) (ys : List Nat) :
    ∀ (b : Board) (i j : Nat),
    (ys.foldl (fun b2 y => modify_cell b2 (x, y) (with_coords x y)) b).board i j =
      if i = x ∧ j ∈ ys ∧ in_interior (x, j) then with_coords x j (b.board i j)
      else b.board i j := by
  induction ys with
  | nil =>
    intro b i j
    simp
  | cons y ys ih =>
    intro b i j
    rw [List.foldl_cons, ih]
    by_cases hc : i = x ∧ j ∈ ys ∧ in_interior (x, j)
    · rw [if_pos hc, if_pos ⟨hc.1, List.mem_cons_of_mem y hc.2.1, hc.2.2⟩]
      by_cases hin : in_interior (x, y)
      · rw [modify_cell_board b (x, y) (with_coords x y) hin]
        by_cases hij : i = x ∧ j = y
        · rw [if_pos hij, with_coords_with_coords]
        · rw [if_neg hij]
      · rw [modify_cell_of_not_interior b (x, y) (with_coords x y) hin]
    · rw [if_neg hc]
      by_cases hc2 : i = x ∧ j ∈ y :: ys ∧ in_interior (x, j)
      · have hjy : j = y := by
          rcases List.mem_cons.mp hc2.2.1 with h | h
          · exact h
          · exact absurd ⟨hc2.1, h, hc2.2.2⟩ hc
        have hin : in_interior (x, y) := by
          rw [← hjy]
          exact hc2.2.2
        rw [if_pos hc2, modify_cell_board b (x, y) (with_coords x y) hin,
          if_pos ⟨hc2.1, hjy⟩, hjy]
      · rw [if_neg hc2]
        by_cases hin : in_interior (x, y)
        · rw [modify_cell_board b (x, y) (with_coords x y) hin,
            if_neg (fun hij => hc2 ⟨hij.1,
              by rw [hij.2]; exact List.mem_cons_self y ys,
              by rw [hij.2]; exact hin⟩)]
        · rw [modify_cell_of_not_interior b (x, y) (with_coords x y) hin]

theorem outer_fold_board (xs : List Nat) :
    ∀ (b : Board) (i j : Nat),
    (xs.foldl
      (fun b2 x => interior_ys.foldl (fun b3 y => modify_cell b3 (x, y) (with_coords x y)) b2)
      b).board i j =
      if i ∈ xs ∧ j ∈ interior_ys ∧ in_interior (i, j) then with_coords i j (b.board i j)
      else b.board i j := by
  induction xs with
  | nil =>
    intro b i j
    simp
  | cons x xs ih =>
    intro b i j
    rw [List.foldl_cons, ih, inner_fold_board x interior_ys b i j]
    by_cases hc : i ∈ xs ∧ j ∈ interior_ys ∧ in_interior (i, j)
    · rw [if_pos hc]
      by_cases hin : i = x ∧ j ∈ interior_ys ∧ in_interior (x, j)
      · rw [if_pos hin, with_coords_with_coords,
          if_pos (show i ∈ x :: xs ∧ j ∈ interior_ys ∧ in_interior (i, j) from
            ⟨List.mem_cons_of_mem x hc.1, hc.2⟩)]
      · rw [if_neg hin,
          if_pos (show i ∈ x :: xs ∧ j ∈ interior_ys ∧ in_interior (i, j) from
            ⟨List.mem_cons_of_mem x hc.1, hc.2⟩)]
    · rw [if_neg hc]
      by_cases hc2 : i ∈ x :: xs ∧ j ∈ interior_ys ∧ in_interior (i, j)
      · have hix : i = x := by
          rcases List.mem_cons.mp hc2.1 with h | h
          · exact h
          · exact absurd ⟨h, hc2.2⟩ hc
        rw [if_pos (show i = x ∧ j ∈ interior_ys ∧ in_interior (x, j) from
            ⟨hix, hc2.2.1, by rw [← hix]; exact hc2.2.2⟩),
          if_pos hc2, hix]
      · rw [if_neg (show ¬(i = x ∧ j ∈ interior_ys ∧ in_interior (x, j)) from
            fun hin => hc2 ⟨by rw [hin.1]; exact List.mem_cons_self x xs, hin.2.1,
              by rw [hin.1]; exact hin.2.2⟩),
          if_neg hc2]

theorem mem_interior_xs (i : Nat) : i ∈ interior_xs ↔ (1 ≤ i ∧ i ≤ BOARD_WIDTH - 1) := by
  unfold interior_xs
  rw [List.mem_range'_1]
  unfold BOARD_WIDTH
  omega

theorem mem_interior_ys (j : Nat) : j ∈ interior_ys ↔ (1 ≤ j ∧ j ≤ BOARD_HEIGHT - 1) := by
  unfold interior_ys
  rw [List.mem_range'_1]
  unfold BOARD_HEIGHT
  omega

theorem new_board_char (i j : Nat) :
    Board.new.board i j =
      if in_interior (i, j) then { alive := false, x_coord := i, y_coord := j }
      else { alive := false, x_coord := 0, y_coord := 0 } := by
  unfold Board.new
  rw [outer_fold_board interior_xs _ i j]
  by_cases hin : in_interior (i, j)
  · rw [if_pos ⟨(mem_interior_xs i).mpr ⟨hin.1, hin.2.1⟩,
      (mem_interior_ys j).mpr ⟨hin.2.2.1, hin.2.2.2⟩, hin⟩, if_pos hin]
    rfl
  · rw [if_neg (fun hc => hin hc.2.2), if_neg hin]

theorem wf_new : WF Board.new := by
  intro x y h1 h2 h3 h4
  rw [new_board_char x y, if_pos (show in_interior (x, y) from ⟨h1, h2, h3, h4⟩)]
  exact ⟨rfl, rfl⟩

theorem modify_preserves_WF (b : Board) (p : Nat × Nat) (f : Cell → Cell)
    (hf : ∀ c, (f c).x_coord = c.x_coord ∧ (f c).y_coord = c.y_coord)
    (hwf : WF b) : WF (modify_cell b p f) := by
  intro x y h1 h2 h3 h4
  by_cases hip : in_interior p
  · rw [modify_cell_board b p f hip]
    by_cases hxy : x = p.1 ∧ y = p.2
    · rw [if_pos hxy]
      obtain ⟨e1, e2⟩ := hf (b.board x y)
      obtain ⟨w1, w2⟩ := hwf x y h1 h2 h3 h4
      exact ⟨by rw [e1, w1], by rw [e2, w2]⟩
    · rw [if_neg hxy]
      exact hwf x y h1 h2 h3 h4
  · rw [modify_cell_of_not_interior b p f hip]
    exact hwf x y h1 h2 h3 h4

theorem foldl_flip_preserves_WF (L : List (Nat × Nat)) :
    ∀ b : Board, WF b →
      WF (L.foldl (fun b2 coords => modify_cell b2 coords Cell.flip) b) := by
  induction L with
  | nil =>
    intro b h
    exact h
  | cons p L ih =>
    intro b h
    rw [List.foldl_cons]
    exact ih _ (modify_preserves_WF b p Cell.flip (fun c => ⟨rfl, rfl⟩) h)

/-- C8: `Board::new` establishes the coordinate-key invariant — every
interior coordinate holds a cell whose stored coordinates equal the lookup
key — and additionally leaves every interior cell dead; flipping a cell,
setting its alive flag, and `tick` all preserve the invariant. -/
theorem construction_establishes_and_ops_preserve_invariant :
    (WF Board.new ∧
      ∀ x y, 1 ≤ x → x ≤ BOARD_WIDTH - 1 → 1 ≤ y → y ≤ BOARD_HEIGHT - 1 →
        (Board.new.board x y).alive = false) ∧
    (∀ b p, WF b → WF (modify_cell b p Cell.flip)) ∧
    (∀ b p v, WF b → WF (modify_cell b p (Cell.set_alive v))) ∧
    (∀ b b2, WF b → b.tick = some b2 → WF b2) := by
  refine ⟨⟨wf_new, ?_⟩, ?_, ?_, ?_⟩
  · intro x y h1 h2 h3 h4
    rw [new_board_char x y, if_pos (show in_interior (x, y) from ⟨h1, h2, h3, h4⟩)]
  · intro b p hwf
    exact modify_preserves_WF b p Cell.flip (fun c => ⟨rfl, rfl⟩) hwf
  · intro b p v hwf
    exact modify_preserves_WF b p (Cell.set_alive v) (fun c => ⟨rfl, rfl⟩) hwf
  · intro b b2 hwf htick
    obtain ⟨L, _, hb2⟩ := tick_eq b b2 htick
    rw [hb2]
    exact foldl_flip_preserves_WF L b hwf

theorem construction_establishes_and_ops_preserve_invariant_witness :
    WF Board.new ∧ WF (modify_cell Board.new (1, 1) Cell.flip) :=
  ⟨construction_establishes_and_ops_preserve_invariant.1.1,
    construction_establishes_and_ops_preserve_invariant.2.1 Board.new (1, 1)
      construction_establishes_and_ops_preserve_invariant.1.1⟩

theorem modify_cell_not_interior_pos (b : Board) (p : Nat × Nat) (f : Cell → Cell)
    (i j : Nat) (h : ¬ in_interior (i, j)) :
    (modify_cell b p f).board i j = b.board i j := by
  by_cases hip : in_interior p
  · rw [modify_cell_board b p f hip,
      if_neg (fun hij => h (by rw [hij.1, hij.2]; exact hip))]
  · rw [modify_cell_of_not_interior b p f hip]

theorem foldl_flip_not_interior (L : List (Nat × Nat)) :
    ∀ (b : Board) (i j : Nat), ¬ in_interior (i, j) →
    (L.foldl (fun b2 coords => modify_cell b2 coords Cell.flip) b).board i j =
      b.board i j := by
  induction L with
  | nil =>
    intro b i j _
    rfl
  | cons p L ih =>
    intro b i j h
    rw [List.foldl_cons, ih _ i j h, modify_cell_not_interior_pos b p Cell.flip i j h]

theorem flipset_members_interior (b : Board) (hwf : WF b) (L : List (Nat × Nat))
    (hL : b.get_cells_to_flip = some L) : ∀ p ∈ L, in_interior p := by
  rw [flipset_eq b hwf] at hL
  intro p hp
  rw [← Option.some.inj hL] at hp
  exact (mem_interior_pairs p).mp (List.mem_filter.mp hp).1

theorem reachable_wf_and_border (b : Board) (hr : Reachable b) :
    WF b ∧ ∀ i j, ¬ in_interior (i, j) → b.board i j = Board.new.board i j := by
  induction hr with
  | new => exact ⟨wf_new, fun i j _ => rfl⟩
  | flip b p hb ih =>
    exact ⟨modify_preserves_WF b p Cell.flip (fun c => ⟨rfl, rfl⟩) ih.1,
      fun i j hni => by
        rw [modify_cell_not_interior_pos b p Cell.flip i j hni]
        exact ih.2 i j hni⟩
  | set b p v hb ih =>
    exact ⟨modify_preserves_WF b p (Cell.set_alive v) (fun c => ⟨rfl, rfl⟩) ih.1,
      fun i j hni => by
        rw [modify_cell_not_interior_pos b p (Cell.set_alive v) i j hni]
        exact ih.2 i j hni⟩
  | tick b b2 hb htick ih =>
    obtain ⟨L, _, hb2⟩ := tick_eq b b2 htick
    refine ⟨by rw [hb2]; exact foldl_flip_preserves_WF L b ih.1, fun i j hni => ?_⟩
    rw [hb2, foldl_flip_not_interior L b i j hni]
    exact ih.2 i j hni

/-- C10: every board reachable through the public interface — built by
`Board::new` and mutated only by flipping cells or setting alive flags
through `get_cell_mut`, or by `tick` — satisfies the coordinate-key
invariant; hence every coordinate returned by `get_cells_to_flip` is an
interior coordinate, the `get_cell_mut` lookup in `tick` returns `some`
for each of them (the silent `None` branch is unreachable), and the
sentinel border cells are never mutated and stay dead forever. -/
theorem reachable_flip_set_is_interior (b : Board) (hr : Reachable b) :
    WF b ∧
    (∀ L, b.get_cells_to_flip = some L → ∀ p ∈ L,
      (1 ≤ p.1 ∧ p.1 ≤ BOARD_WIDTH - 1 ∧ 1 ≤ p.2 ∧ p.2 ≤ BOARD_HEIGHT - 1) ∧
        ∃ c, b.get_cell_mut p = some c) ∧
    (∀ i j, ¬(1 ≤ i ∧ i ≤ BOARD_WIDTH - 1 ∧ 1 ≤ j ∧ j ≤ BOARD_HEIGHT - 1) →
      (b.board i j).alive = false) := by
  obtain ⟨hwf, hborder⟩ := reachable_wf_and_border b hr
  refine ⟨hwf, ?_, ?_⟩
  · intro L hL p hp
    have hip := flipset_members_interior b hwf L hL p hp
    exact ⟨hip, b.board p.1 p.2,
      by rw [Board.get_cell_mut_eq]; exact Board.get_cell_of_interior b p hip⟩
  · intro i j hni
    rw [hborder i j hni, new_board_char i j,
      if_neg (show ¬ in_interior (i, j) from hni)]

theorem reachable_flip_set_is_interior_witness :
    WF Board.new ∧
    (∀ L, Board.new.get_cells_to_flip = some L → ∀ p ∈ L,
      (1 ≤ p.1 ∧ p.1 ≤ BOARD_WIDTH - 1 ∧ 1 ≤ p.2 ∧ p.2 ≤ BOARD_HEIGHT - 1) ∧
        ∃ c, Board.new.get_cell_mut p = some c) ∧
    (∀ i j, ¬(1 ≤ i ∧ i ≤ BOARD_WIDTH - 1 ∧ 1 ≤ j ∧ j ≤ BOARD_HEIGHT - 1) →
      (Board.new.board i j).alive = false) :=
  reachable_flip_set_is_interior Board.new Reachable.new
